import Mathlib

/-!
# Verification of the Lattice-Lab lattice experiment engine

This development shallowly embeds the Go sources of the Lattice-Lab
repository (basis generation, volume and Gaussian-heuristic estimation,
the basis text codec, and the SVP/BKZ reduction-oracle wrappers) and
proves or refutes the specification claims about them.

Strings are modelled as `List Char`; Go `big.Int` values as `ℤ`;
`float64` arithmetic is idealised over `ℚ` where the computed values are
exact (sums of squares of integers) and over `ℝ` where transcendental
functions occur (square roots, powers, logarithms).
-/

namespace LatticeLab

open Matrix

/-! ## Character-level models of the Go string primitives

These model, character by character, the `strings` package functions the
codec uses: `TrimSpace`, `Trim(s, "[]")`, `Split(s, "\n")`, `Fields`,
together with `big.Int.String` and `big.Int.SetString(s, 10)`.
-/

/-- The whitespace class used by `strings.TrimSpace`/`strings.Fields`
(`unicode.IsSpace`), restricted to its ASCII members — the only ones the
codec can meet. -/
def isSpaceGo (c : Char) : Bool :=
  c == ' ' || c == '\t' || c == '\n' || c == '\x0b' || c == '\x0c' || c == '\r'

/-- The cutset `"[]"` of the `strings.Trim(line, "[]")` call in
`parseMatrixOutput`. -/
def isBracketChar (c : Char) : Bool := c == '[' || c == ']'

/-- Dropping a leading and a trailing run of `p`-characters: the common
shape of `strings.TrimSpace` and `strings.Trim`. -/
def trimBoth (p : Char → Bool) (l : List Char) : List Char :=
  ((l.dropWhile p).reverse.dropWhile p).reverse

/-- Model of `strings.TrimSpace`. -/
def trimSpace (l : List Char) : List Char := trimBoth isSpaceGo l

/-- Model of `strings.Trim(line, "[]")`. -/
def trimBrackets (l : List Char) : List Char := trimBoth isBracketChar l

/-- Splitting at every character satisfying `p`, keeping empty pieces:
with `p = (· == '\n')` this is `strings.Split(s, "\n")`, and it is the
splitting underlying `strings.Fields`. -/
def splitP (p : Char → Bool) : List Char → List (List Char)
  | [] => [[]]
  | c :: cs =>
    if p c then [] :: splitP p cs
    else
      match splitP p cs with
      | [] => [[c]]
      | h :: t => (c :: h) :: t

/-- Model of `strings.Split(s, "\n")`. -/
def splitLines (l : List Char) : List (List Char) := splitP (fun c => c == '\n') l

/-- Model of `strings.Fields`: maximal runs of non-whitespace characters. -/
def fields (l : List Char) : List (List Char) :=
  (splitP isSpaceGo l).filter (fun f => !f.isEmpty)

/-- Numeric value of a decimal digit character. -/
def digitVal (c : Char) : ℕ := c.toNat - '0'.toNat

/-- Decimal digits of `n`, most significant first, written with an explicit
fuel argument so that the definition is structural (fuel `n + 1` always
suffices).  Together with the sign in `intChars` this models
`big.Int.String`. -/
def natCharsAux : ℕ → ℕ → List Char
  | 0, _ => []
  | fuel + 1, n =>
    if n < 10 then [Nat.digitChar n]
    else natCharsAux fuel (n / 10) ++ [Nat.digitChar (n % 10)]

/-- Decimal rendering of a natural number. -/
def natChars (n : ℕ) : List Char := natCharsAux (n + 1) n

/-- Model of `big.Int.String`: an optional minus sign followed by decimal
digits. -/
def intChars (v : ℤ) : List Char :=
  if v < 0 then '-' :: natChars v.natAbs else natChars v.toNat

/-- Accumulate base-10 digits left to right. -/
def digitsToNat (l : List Char) : ℕ := l.foldl (fun a c => 10 * a + digitVal c) 0

/-- Digit-string part of `big.Int.SetString(s, 10)`: the whole string must
be one or more decimal digits. -/
def parseNat? (l : List Char) : Option ℕ :=
  if l.isEmpty then none
  else if l.all Char.isDigit then some (digitsToNat l) else none

/-- Model of `big.Int.SetString(s, 10)`: an optional `+`/`-` sign followed
by decimal digits; anything else is rejected. -/
def parseInt? (l : List Char) : Option ℤ :=
  match l with
  | [] => none
  | c :: rest =>
    if c = '+' then (parseNat? rest).map (fun n : ℕ => (n : ℤ))
    else if c = '-' then (parseNat? rest).map (fun n : ℕ => -(n : ℤ))
    else (parseNat? (c :: rest)).map (fun n : ℕ => (n : ℤ))

/-- Items joined by a separator written only between consecutive items —
the shape produced by the Go writer loops with their `if j < cols-1`
separator guards. -/
def interc (sep : List Char) : List (List Char) → List Char
  | [] => []
  | [x] => x
  | x :: y :: t => x ++ sep ++ interc sep (y :: t)

/-! ## The Basis Codec -/

/-- The space-separated entries of one row, as `writeBasisToFile` prints
them (`fmt.Fprintf(file, "%s", basis[i][j].String())` with a space before
every non-final column). -/
def entryChars (r : List ℤ) : List Char := interc [' '] (r.map intChars)

/-- One row line `[v1 v2 ... vn]` of the basis text grammar. -/
def rowChars (r : List ℤ) : List Char := '[' :: entryChars r ++ [']']

/-- The exact character stream `writeBasisToFile` writes: an opening
bracket, the rows (each `[v1 v2 ... vn]`) separated by newlines, then the
closing bracket and a final newline.  Each row prints exactly
`cols = len(basis[0])` entries, as the Go column loop does. -/
def writeBasisToFile (basis : List (List ℤ)) : List Char :=
  let cols := (basis.headD []).length
  '[' :: interc ['\n'] (basis.map (fun r => rowChars (r.take cols))) ++ [']', '\n']

/-- Model of `strings.HasPrefix(line, "[")`. -/
def hasPrefixBr : List Char → Bool
  | '[' :: _ => true
  | _ => false

/-- One iteration of the row loop of `parseMatrixOutput`: trim the line,
skip it (`continue`) unless it involves a bracket, strip the bracket
cutset, split into fields, parse each field with `SetString` (silently
dropping fields that fail), and keep the row if it is non-empty.
`none` is returned exactly where the Go loop `continue`s. -/
def parseLine (line : List Char) : Option (List ℤ) :=
  let l := trimSpace line
  if l.isEmpty then none
  else if !hasPrefixBr l && !l.contains '[' then none
  else
    let t := trimBrackets l
    if t.isEmpty then none
    else
      let coords := fields t
      if coords.isEmpty then none
      else
        let row := coords.foldl (fun r c =>
          match parseInt? c with
          | some v => r ++ [v]
          | none => r) []
        if row.isEmpty then none else some row

/-- Model of `parseMatrixOutput`: trim the whole output, split it into
lines, and accumulate the rows the per-line parser accepts.  (The Go
`len(lines) == 0` guard is dead code: `strings.Split` never returns an
empty slice.) -/
def parseMatrixOutput (output : List Char) : List (List ℤ) :=
  let lines := splitLines (trimSpace output)
  lines.foldl (fun acc line =>
    match parseLine line with
    | some row => acc ++ [row]
    | none => acc) []

/-! ## Codec round-trip: auxiliary lemmas -/

theorem splitP_ne_nil (p : Char → Bool) (l : List Char) : splitP p l ≠ [] := by
  cases l with
  | nil => simp [splitP]
  | cons c cs =>
    simp only [splitP]
    split
    · simp
    · split <;> simp

theorem splitP_all_not {p : Char → Bool} {l : List Char} (h : ∀ c ∈ l, p c = false) :
    splitP p l = [l] := by
  induction l with
  | nil => rfl
  | cons c cs ih =>
    have hc : p c = false := h c (by simp)
    have hcs : splitP p cs = [cs] := ih fun x hx => h x (by simp [hx])
    simp [splitP, hc, hcs]

theorem splitP_append_sep {p : Char → Bool} {a rest : List Char} {d : Char}
    (ha : ∀ c ∈ a, p c = false) (hd : p d = true) :
    splitP p (a ++ d :: rest) = a :: splitP p rest := by
  induction a with
  | nil => simp [splitP, hd]
  | cons c a ih =>
    have hc : p c = false := ha c (by simp)
    have ha' : splitP p (a ++ d :: rest) = a :: splitP p rest :=
      ih fun x hx => ha x (by simp [hx])
    simp [splitP, hc, ha']

theorem dropWhile_append_all {p : Char → Bool} {a b : List Char}
    (h : ∀ c ∈ a, p c = true) : (a ++ b).dropWhile p = b.dropWhile p := by
  induction a with
  | nil => rfl
  | cons c a ih =>
    have hc : p c = true := h c (by simp)
    simp only [List.cons_append, List.dropWhile_cons, hc, if_pos]
    exact ih fun x hx => h x (by simp [hx])

theorem dropWhile_cons_false {p : Char → Bool} {c : Char} {l : List Char}
    (h : p c = false) : (c :: l).dropWhile p = c :: l := by
  simp [List.dropWhile_cons, h]

/-- Stripping a `p`-true frame around a block whose boundary characters are
`p`-false recovers exactly the block. -/
theorem trimBoth_strip {p : Char → Bool} {a b e : List Char}
    (ha : ∀ x ∈ a, p x = true) (hb : ∀ x ∈ b, p x = true) (hne : e ≠ [])
    (h1 : p (e.headD ' ') = false) (h2 : p (e.reverse.headD ' ') = false) :
    trimBoth p (a ++ (e ++ b)) = e := by
  obtain ⟨d, m', rfl⟩ := List.exists_cons_of_ne_nil hne
  unfold trimBoth
  rw [List.cons_append, dropWhile_append_all ha,
      dropWhile_cons_false (by simpa using h1)]
  have hrev : (d :: (m' ++ b)).reverse = b.reverse ++ (d :: m').reverse := by
    simp [List.reverse_cons, List.reverse_append]
  rw [hrev, dropWhile_append_all (fun x hx => hb x (List.mem_reverse.mp hx))]
  cases hr : (d :: m').reverse with
  | nil => simp at hr
  | cons c m =>
    rw [dropWhile_cons_false (by rw [hr] at h2; simpa using h2), ← hr,
        List.reverse_reverse]

/-- A list whose boundary characters are `p`-false is untouched by
`trimBoth p`. -/
theorem trimBoth_self {p : Char → Bool} {l : List Char} (hne : l ≠ [])
    (h1 : p (l.headD ' ') = false) (h2 : p (l.reverse.headD ' ') = false) :
    trimBoth p l = l := by
  have := trimBoth_strip (p := p) (a := []) (b := []) (by simp) (by simp) hne h1 h2
  simpa using this

theorem digitChar_isDigit {d : ℕ} (h : d < 10) : (Nat.digitChar d).isDigit = true := by
  interval_cases d <;> decide

theorem digitVal_digitChar {d : ℕ} (h : d < 10) : digitVal (Nat.digitChar d) = d := by
  interval_cases d <;> decide

theorem natCharsAux_ne_nil {fuel n : ℕ} (h : n < fuel) : natCharsAux fuel n ≠ [] := by
  cases fuel with
  | zero => omega
  | succ fuel =>
    by_cases h10 : n < 10 <;> simp [natCharsAux, h10]

theorem natCharsAux_step {fuel n : ℕ} (h10 : ¬ n < 10) :
    natCharsAux (fuel + 1) n = natCharsAux fuel (n / 10) ++ [Nat.digitChar (n % 10)] := by
  simp [natCharsAux, h10]

theorem natCharsAux_digits {fuel n : ℕ} (h : n < fuel) :
    ∀ c ∈ natCharsAux fuel n, c.isDigit = true := by
  induction fuel generalizing n with
  | zero => omega
  | succ fuel ih =>
    by_cases h10 : n < 10
    · simpa [natCharsAux, h10] using digitChar_isDigit h10
    · have hrec : n / 10 < fuel := by omega
      intro c hc
      rw [natCharsAux_step h10] at hc
      rcases List.mem_append.mp hc with hc | hc
      · exact ih hrec c hc
      · rw [List.mem_singleton] at hc
        subst hc
        exact digitChar_isDigit (Nat.mod_lt _ (by omega))

theorem natCharsAux_foldl {fuel n : ℕ} (h : n < fuel) :
    ∀ a, (natCharsAux fuel n).foldl (fun a c => 10 * a + digitVal c) a
      = a * 10 ^ (natCharsAux fuel n).length + n := by
  induction fuel generalizing n with
  | zero => omega
  | succ fuel ih =>
    intro a
    by_cases h10 : n < 10
    · simp [natCharsAux, h10, digitVal_digitChar h10]; ring
    · have hrec : n / 10 < fuel := by omega
      rw [natCharsAux_step h10, List.foldl_append, List.length_append]
      simp only [List.foldl_cons, List.foldl_nil, List.length_cons, List.length_nil]
      rw [ih hrec a, digitVal_digitChar (Nat.mod_lt _ (by omega))]
      have hdm : 10 * (n / 10) + n % 10 = n := by omega
      ring_nf
      omega

theorem parseNat?_natChars (n : ℕ) : parseNat? (natChars n) = some n := by
  have hne : natChars n ≠ [] := @natCharsAux_ne_nil (n + 1) n (by omega)
  have hdig : ∀ c ∈ natChars n, c.isDigit = true :=
    @natCharsAux_digits (n + 1) n (by omega)
  have hfold := @natCharsAux_foldl (n + 1) n (by omega) 0
  unfold parseNat? digitsToNat
  rw [if_neg (by simpa [List.isEmpty_iff] using hne),
      if_pos (by simpa [List.all_eq_true] using hdig)]
  unfold natChars at hfold ⊢
  simp [hfold]

theorem natChars_head_isDigit (n : ℕ) : ((natChars n).headD ' ').isDigit = true := by
  have hne : natChars n ≠ [] := @natCharsAux_ne_nil (n + 1) n (by omega)
  have hdig : ∀ c ∈ natChars n, c.isDigit = true :=
    @natCharsAux_digits (n + 1) n (by omega)
  obtain ⟨c, t, hct⟩ := List.exists_cons_of_ne_nil hne
  rw [hct]
  exact hdig c (hct ▸ List.mem_cons_self c t)

theorem parseInt?_intChars (v : ℤ) : parseInt? (intChars v) = some v := by
  unfold intChars
  by_cases hv : v < 0
  · rw [if_pos hv]
    show parseInt? ('-' :: natChars v.natAbs) = some v
    simp only [parseInt?, if_true]
    rw [parseNat?_natChars]
    simp only [Option.map_some', Option.some.injEq]
    rw [if_neg (by decide : ¬ ('-' : Char) = '+')]
    simp only [Option.some.injEq]
    omega
  · rw [if_neg hv]
    have hne : natChars v.toNat ≠ [] :=
      @natCharsAux_ne_nil (v.toNat + 1) v.toNat (by omega)
    obtain ⟨c, t, hct⟩ := List.exists_cons_of_ne_nil hne
    have hcdig : c.isDigit = true := by
      have := natChars_head_isDigit v.toNat
      rw [hct] at this
      simpa using this
    have hplus : c ≠ '+' := fun h => by subst h; simp at hcdig
    have hminus : c ≠ '-' := fun h => by subst h; simp at hcdig
    rw [hct]
    simp only [parseInt?]
    rw [if_neg hplus, if_neg hminus, ← hct, parseNat?_natChars]
    simp only [Option.map_some', Option.some.injEq]
    omega

theorem isDigit_not_space {c : Char} (h : c.isDigit = true) : isSpaceGo c = false := by
  unfold isSpaceGo
  simp only [Bool.or_eq_false_iff, beq_eq_false_iff_ne, ne_eq]
  refine ⟨⟨⟨⟨⟨?_, ?_⟩, ?_⟩, ?_⟩, ?_⟩, ?_⟩ <;> rintro rfl <;> simp [Char.isDigit] at h

theorem isDigit_not_bracket {c : Char} (h : c.isDigit = true) : isBracketChar c = false := by
  unfold isBracketChar
  simp only [Bool.or_eq_false_iff, beq_eq_false_iff_ne, ne_eq]
  constructor <;> rintro rfl <;> simp [Char.isDigit] at h

theorem isDigit_ne_newline {c : Char} (h : c.isDigit = true) : (c == '\n') = false := by
  simp only [beq_eq_false_iff_ne, ne_eq]
  rintro rfl
  simp [Char.isDigit] at h

theorem natChars_ne_nil (n : ℕ) : natChars n ≠ [] :=
  @natCharsAux_ne_nil (n + 1) n (by omega)

theorem natChars_digits (n : ℕ) : ∀ c ∈ natChars n, c.isDigit = true :=
  @natCharsAux_digits (n + 1) n (by omega)

/-- A character printed by `big.Int.String` is a digit or the minus sign. -/
theorem intChars_entry {v : ℤ} : ∀ c ∈ intChars v, c.isDigit = true ∨ c = '-' := by
  unfold intChars
  split
  · intro c hc
    rcases List.mem_cons.mp hc with rfl | hc
    · right; rfl
    · left; exact natChars_digits v.natAbs c hc
  · intro c hc
    left; exact natChars_digits v.toNat c hc

theorem intChars_ne_nil (v : ℤ) : intChars v ≠ [] := by
  unfold intChars
  split
  · simp
  · exact natChars_ne_nil v.toNat

theorem headD_append_of_ne_nil {a b : List Char} (h : a ≠ []) (d : Char) :
    ((a ++ b).headD d) = a.headD d := by
  cases a with
  | nil => exact absurd rfl h
  | cons c t => rfl

theorem reverse_headD_mem {l : List Char} (h : l ≠ []) (d : Char) :
    l.reverse.headD d ∈ l := by
  cases hr : l.reverse with
  | nil => exact absurd (by simpa using congrArg List.reverse hr) h
  | cons c t =>
    have : c ∈ l.reverse := hr ▸ List.mem_cons_self c t
    simpa using List.mem_reverse.mp this

theorem intChars_headD {v : ℤ} :
    ((intChars v).headD ' ').isDigit = true ∨ (intChars v).headD ' ' = '-' := by
  unfold intChars
  split
  · right; rfl
  · left; exact natChars_head_isDigit v.toNat

/-- The last character printed by `big.Int.String` is always a digit. -/
theorem intChars_reverse_headD {v : ℤ} :
    ((intChars v).reverse.headD ' ').isDigit = true := by
  unfold intChars
  split
  · have hnc : natChars v.natAbs ≠ [] := natChars_ne_nil v.natAbs
    have hrev : ('-' :: natChars v.natAbs).reverse
        = (natChars v.natAbs).reverse ++ ['-'] := by simp
    rw [hrev, headD_append_of_ne_nil (by simpa using hnc) ' ']
    exact natChars_digits v.natAbs _ (reverse_headD_mem hnc ' ')
  · exact natChars_digits v.toNat _ (reverse_headD_mem (natChars_ne_nil v.toNat) ' ')

theorem entryChars_cons_cons (v w : ℤ) (t : List ℤ) :
    entryChars (v :: w :: t) = intChars v ++ [' '] ++ entryChars (w :: t) := rfl

theorem entryChars_ne_nil {r : List ℤ} (hr : r ≠ []) : entryChars r ≠ [] := by
  cases r with
  | nil => exact absurd rfl hr
  | cons v t =>
    cases t with
    | nil => exact intChars_ne_nil v
    | cons w t =>
      rw [entryChars_cons_cons]
      simp [intChars_ne_nil v]

theorem entryChars_mem {r : List ℤ} :
    ∀ c ∈ entryChars r, c.isDigit = true ∨ c = '-' ∨ c = ' ' := by
  induction r with
  | nil => intro c hc; simp [entryChars, interc] at hc
  | cons v t ih =>
    cases t with
    | nil =>
      intro c hc
      rcases intChars_entry c hc with h | h
      · exact Or.inl h
      · exact Or.inr (Or.inl h)
    | cons w t =>
      intro c hc
      rw [entryChars_cons_cons] at hc
      rcases List.mem_append.mp hc with hc | hc
      · rcases List.mem_append.mp hc with hc | hc
        · rcases intChars_entry c hc with h | h
          · exact Or.inl h
          · exact Or.inr (Or.inl h)
        · rw [List.mem_singleton] at hc
          exact Or.inr (Or.inr hc)
      · exact ih c hc

theorem entryChars_headD {r : List ℤ} (hr : r ≠ []) :
    ((entryChars r).headD ' ').isDigit = true ∨ (entryChars r).headD ' ' = '-' := by
  cases r with
  | nil => exact absurd rfl hr
  | cons v t =>
    cases t with
    | nil => exact intChars_headD
    | cons w t =>
      rw [entryChars_cons_cons, List.append_assoc,
          headD_append_of_ne_nil (intChars_ne_nil v) ' ']
      exact intChars_headD

theorem entryChars_reverse_headD {r : List ℤ} (hr : r ≠ []) :
    ((entryChars r).reverse.headD ' ').isDigit = true := by
  induction r with
  | nil => exact absurd rfl hr
  | cons v t ih =>
    cases t with
    | nil => exact intChars_reverse_headD
    | cons w t =>
      rw [entryChars_cons_cons]
      have hrev : (intChars v ++ [' '] ++ entryChars (w :: t)).reverse
          = (entryChars (w :: t)).reverse ++ (' ' :: (intChars v).reverse) := by
        simp [List.reverse_append]
      rw [hrev, headD_append_of_ne_nil
        (by simpa using entryChars_ne_nil (by simp : w :: t ≠ ([] : List ℤ))) ' ']
      exact ih (by simp)

/-- `strings.Fields` recovers exactly the entry strings of a printed row. -/
theorem fields_entryChars {r : List ℤ} (hr : r ≠ []) :
    fields (entryChars r) = r.map intChars := by
  have hsplit : splitP isSpaceGo (entryChars r) = r.map intChars := by
    induction r with
    | nil => exact absurd rfl hr
    | cons v t ih =>
      cases t with
      | nil =>
        show splitP isSpaceGo (intChars v) = [intChars v]
        refine splitP_all_not fun c hc => ?_
        rcases intChars_entry c hc with h | h
        · exact isDigit_not_space h
        · subst h; decide
      | cons w t =>
        rw [entryChars_cons_cons, List.append_assoc]
        have hv : ∀ c ∈ intChars v, isSpaceGo c = false := fun c hc => by
          rcases intChars_entry c hc with h | h
          · exact isDigit_not_space h
          · subst h; decide
        rw [show ([' '] ++ entryChars (w :: t)) = ' ' :: entryChars (w :: t) from rfl]
        rw [splitP_append_sep hv (by decide), ih (by simp)]
        rfl
  unfold fields
  rw [hsplit]
  refine List.filter_eq_self.mpr fun a ha => ?_
  rcases List.mem_map.mp ha with ⟨v, _, rfl⟩
  simpa [List.isEmpty_iff] using intChars_ne_nil v

/-- Folding the coordinate strings of a printed row through the
`SetString`-and-append loop of `parseMatrixOutput` rebuilds the row. -/
theorem rowFold_entryChars (r : List ℤ) :
    ∀ acc, (r.map intChars).foldl (fun acc' c =>
        match parseInt? c with
        | some v => acc' ++ [v]
        | none => acc') acc = acc ++ r := by
  induction r with
  | nil => intro acc; simp
  | cons v t ih =>
    intro acc
    simp only [List.map_cons, List.foldl_cons, parseInt?_intChars]
    rw [ih (acc ++ [v])]
    simp

theorem framed_reverse_headD (pre mid : List Char) (k : ℕ) (c : Char) :
    ((pre ++ (mid ++ List.replicate (k + 1) c)).reverse).headD ' ' = c := by
  have h : (pre ++ (mid ++ List.replicate (k + 1) c)).reverse
      = List.replicate (k + 1) c ++ (mid.reverse ++ pre.reverse) := by
    simp [List.reverse_append, List.reverse_replicate, List.append_assoc]
  rw [h, headD_append_of_ne_nil (by simp) ' ', List.replicate_succ]
  rfl

/-- The per-line parser recovers the row from any line consisting of a
non-empty run of opening brackets, the printed entries, and a non-empty
run of closing brackets — exactly the shapes the writer's lines take once
the outer brackets attach to the first and last row. -/
theorem parseLine_framed {k1 k2 : ℕ} {r : List ℤ} (h1 : 1 ≤ k1) (h2 : 1 ≤ k2)
    (hr : r ≠ []) :
    parseLine (List.replicate k1 '[' ++ (entryChars r ++ List.replicate k2 ']'))
      = some r := by
  obtain ⟨k1', rfl⟩ : ∃ k, k1 = k + 1 := ⟨k1 - 1, by omega⟩
  obtain ⟨k2', rfl⟩ : ∃ k, k2 = k + 1 := ⟨k2 - 1, by omega⟩
  set line := List.replicate (k1' + 1) '[' ++ (entryChars r ++ List.replicate (k2' + 1) ']')
    with hlinedef
  have hline_cons : line = '[' :: (List.replicate k1' '[' ++
      (entryChars r ++ List.replicate (k2' + 1) ']')) := by
    rw [hlinedef, List.replicate_succ]
    rfl
  have htrim : trimSpace line = line := by
    refine trimBoth_self ?_ ?_ ?_
    · rw [hline_cons]; simp
    · rw [hline_cons]
      simp only [List.headD_cons]
      decide
    · rw [hlinedef, framed_reverse_headD]
      decide
  have hbrk : trimBrackets line = entryChars r := by
    refine trimBoth_strip (fun x hx => ?_) (fun x hx => ?_) (entryChars_ne_nil hr) ?_ ?_
    · rw [List.eq_of_mem_replicate hx]; decide
    · rw [List.eq_of_mem_replicate hx]; decide
    · rcases entryChars_headD hr with h | h
      · exact isDigit_not_bracket h
      · rw [h]; decide
    · exact isDigit_not_bracket (entryChars_reverse_headD hr)
  have hne_line : line.isEmpty = false := by
    rw [hline_cons]; rfl
  have hpre : hasPrefixBr line = true := by
    rw [hline_cons]; rfl
  simp only [parseLine, htrim, hne_line, hpre, Bool.not_true, Bool.false_and,
    Bool.if_false_left, Bool.and_false, if_false, hbrk]
  rw [fields_entryChars hr]
  have hcoords : (r.map intChars).isEmpty = false := by
    cases r with
    | nil => exact absurd rfl hr
    | cons v t => rfl
  simp only [hcoords, if_false, Bool.false_eq_true]
  rw [rowFold_entryChars r []]
  simp only [List.nil_append]
  have hrow : r.isEmpty = false := by
    cases r with
    | nil => exact absurd rfl hr
    | cons v t => rfl
  simp [hrow, entryChars_ne_nil hr]

theorem parseLine_row {r : List ℤ} (hr : r ≠ []) : parseLine (rowChars r) = some r := by
  have h : rowChars r = List.replicate 1 '[' ++ (entryChars r ++ List.replicate 1 ']') := by
    simp [rowChars]
  rw [h]
  exact parseLine_framed (by omega) (by omega) hr

theorem parseLine_row_last {r : List ℤ} (hr : r ≠ []) :
    parseLine (rowChars r ++ [']']) = some r := by
  have h : rowChars r ++ [']'] = List.replicate 1 '[' ++ (entryChars r ++ List.replicate 2 ']') := by
    simp [rowChars, List.replicate, List.append_assoc]
  rw [h]
  exact parseLine_framed (by omega) (by omega) hr

theorem parseLine_row_first {r : List ℤ} (hr : r ≠ []) :
    parseLine ('[' :: rowChars r) = some r := by
  have h : '[' :: rowChars r = List.replicate 2 '[' ++ (entryChars r ++ List.replicate 1 ']') := by
    simp [rowChars, List.replicate]
  rw [h]
  exact parseLine_framed (by omega) (by omega) hr

theorem parseLine_row_single {r : List ℤ} (hr : r ≠ []) :
    parseLine ('[' :: (rowChars r ++ [']'])) = some r := by
  have h : '[' :: (rowChars r ++ [']'])
      = List.replicate 2 '[' ++ (entryChars r ++ List.replicate 2 ']') := by
    simp [rowChars, List.replicate, List.append_assoc]
  rw [h]
  exact parseLine_framed (by omega) (by omega) hr

theorem rowChars_no_newline {r : List ℤ} : ∀ c ∈ rowChars r, (c == '\n') = false := by
  intro c hc
  unfold rowChars at hc
  rcases List.mem_cons.mp hc with rfl | hc
  · decide
  · rcases List.mem_append.mp hc with hc | hc
    · rcases entryChars_mem c hc with h | h | h
      · exact isDigit_ne_newline h
      · subst h; decide
      · subst h; decide
    · rw [List.mem_singleton] at hc; subst hc; decide

/-- Folding the parser over the lines after the first row accumulates
exactly the remaining rows. -/
theorem foldl_tail_lines {bs : List (List ℤ)} (hbs : bs ≠ []) (hrows : ∀ r ∈ bs, r ≠ []) :
    ∀ acc : List (List ℤ),
      (splitLines (interc ['\n'] (bs.map rowChars) ++ [']'])).foldl
        (fun acc line => match parseLine line with
          | some row => acc ++ [row]
          | none => acc) acc = acc ++ bs := by
  induction bs with
  | nil => exact absurd rfl hbs
  | cons r rest ih =>
    intro acc
    cases rest with
    | nil =>
      have hsingle : splitLines (interc ['\n'] ([r].map rowChars) ++ [']'])
          = [rowChars r ++ [']']] := by
        show splitLines (rowChars r ++ [']']) = [rowChars r ++ [']']]
        refine splitP_all_not fun c hc => ?_
        rcases List.mem_append.mp hc with hc | hc
        · exact rowChars_no_newline c hc
        · rw [List.mem_singleton] at hc; subst hc; decide
      rw [hsingle]
      simp [parseLine_row_last (hrows r (by simp))]
    | cons r2 rest2 =>
      have hstep : interc ['\n'] ((r :: r2 :: rest2).map rowChars) ++ [']']
          = rowChars r ++ '\n' :: (interc ['\n'] ((r2 :: rest2).map rowChars) ++ [']']) := by
        simp [interc, List.append_assoc]
      rw [hstep]
      rw [show splitLines (rowChars r ++ '\n' ::
            (interc ['\n'] ((r2 :: rest2).map rowChars) ++ [']']))
          = rowChars r :: splitLines (interc ['\n'] ((r2 :: rest2).map rowChars) ++ [']']) from
        splitP_append_sep rowChars_no_newline (by decide)]
      rw [List.foldl_cons]
      rw [show (match parseLine (rowChars r) with
          | some row => acc ++ [row]
          | none => acc) = acc ++ [r] from by rw [parseLine_row (hrows r (by simp))]]
      rw [ih (by simp) (fun x hx => hrows x (by simp [hx])) (acc ++ [r])]
      simp

/-- **C1.** Round-trip of the Basis Codec: for every non-empty rectangular
basis with at least one column, parsing the text written by
`writeBasisToFile` with `parseMatrixOutput` reproduces exactly the original
integer matrix.  (Every `big.Int` prints as an optional sign followed by
base-10 digits, so the grammar condition of the claim is automatic.) -/
theorem writeBasis_parse_roundtrip (basis : List (List ℤ)) (hne : basis ≠ [])
    (hcols : ∀ r ∈ basis, r.length = (basis.headD []).length)
    (hpos : (basis.headD []).length ≠ 0) :
    parseMatrixOutput (writeBasisToFile basis) = basis := by
  have htake : basis.map (fun r => rowChars (r.take (basis.headD []).length))
      = basis.map rowChars := by
    refine List.map_congr_left fun r hrmem => ?_
    rw [← hcols r hrmem, List.take_length]
  have hrow_ne : ∀ r ∈ basis, r ≠ [] := by
    intro r hrm hnil
    subst hnil
    exact hpos ((hcols [] hrm).symm ▸ rfl)
  have hfull : writeBasisToFile basis
      = '[' :: (interc ['\n'] (basis.map rowChars) ++ [']', '\n']) := by
    simp only [writeBasisToFile]
    rw [htake]
    simp
  have htrim : trimSpace ('[' :: (interc ['\n'] (basis.map rowChars) ++ [']', '\n']))
      = '[' :: (interc ['\n'] (basis.map rowChars) ++ [']']) := by
    unfold trimSpace trimBoth
    rw [dropWhile_cons_false (by decide)]
    have hrev : ('[' :: (interc ['\n'] (basis.map rowChars) ++ [']', '\n'])).reverse
        = '\n' :: ']' :: ((interc ['\n'] (basis.map rowChars)).reverse ++ ['[']) := by
      simp
    rw [hrev]
    rw [show List.dropWhile isSpaceGo
          ('\n' :: ']' :: ((interc ['\n'] (basis.map rowChars)).reverse ++ ['[']))
        = List.dropWhile isSpaceGo
          (']' :: ((interc ['\n'] (basis.map rowChars)).reverse ++ ['['])) from by
      rw [List.dropWhile_cons, if_pos (by decide : isSpaceGo '\n' = true)]]
    rw [dropWhile_cons_false (by decide)]
    simp
  simp only [parseMatrixOutput]
  rw [hfull, htrim]
  obtain ⟨r0, rest, rfl⟩ := List.exists_cons_of_ne_nil hne
  cases rest with
  | nil =>
    have hone : '[' :: (interc ['\n'] ([r0].map rowChars) ++ [']'])
        = '[' :: (rowChars r0 ++ [']']) := rfl
    rw [hone]
    have hsplit : splitLines ('[' :: (rowChars r0 ++ [']']))
        = ['[' :: (rowChars r0 ++ [']'])] := by
      refine splitP_all_not fun c hc => ?_
      rcases List.mem_cons.mp hc with rfl | hc
      · decide
      · rcases List.mem_append.mp hc with hc | hc
        · exact rowChars_no_newline c hc
        · rw [List.mem_singleton] at hc; subst hc; decide
    rw [hsplit]
    simp [parseLine_row_single (hrow_ne r0 (by simp))]
  | cons r1 rest1 =>
    have hsplit2 : '[' :: (interc ['\n'] ((r0 :: r1 :: rest1).map rowChars) ++ [']'])
        = ('[' :: rowChars r0) ++ '\n' ::
            (interc ['\n'] ((r1 :: rest1).map rowChars) ++ [']']) := by
      simp [interc, List.append_assoc]
    rw [hsplit2]
    rw [show splitLines (('[' :: rowChars r0) ++ '\n' ::
          (interc ['\n'] ((r1 :: rest1).map rowChars) ++ [']']))
        = ('[' :: rowChars r0) :: splitLines
            (interc ['\n'] ((r1 :: rest1).map rowChars) ++ [']']) from
      splitP_append_sep (fun c hc => by
        rcases List.mem_cons.mp hc with rfl | hc
        · decide
        · exact rowChars_no_newline c hc) (by decide)]
    rw [List.foldl_cons]
    rw [show (match parseLine ('[' :: rowChars r0) with
        | some row => ([] : List (List ℤ)) ++ [row]
        | none => []) = [r0] from by rw [parseLine_row_first (hrow_ne r0 (by simp))]; rfl]
    rw [foldl_tail_lines (by simp) (fun x hx => hrow_ne x (by simp [hx])) [r0]]
    rfl

/-- Witness for C1 at the concrete basis `[[12, -345, 6], [0, 1, 2], [7, 8, -9]]`. -/
theorem writeBasis_parse_roundtrip_witness :
    ([[12, -345, 6], [0, 1, 2], [7, 8, -9]] : List (List ℤ)) ≠ [] ∧
    (∀ r ∈ ([[12, -345, 6], [0, 1, 2], [7, 8, -9]] : List (List ℤ)),
      r.length = ((([[12, -345, 6], [0, 1, 2], [7, 8, -9]] : List (List ℤ)).headD []).length)) ∧
    (([[12, -345, 6], [0, 1, 2], [7, 8, -9]] : List (List ℤ)).headD []).length ≠ 0 ∧
    parseMatrixOutput (writeBasisToFile [[12, -345, 6], [0, 1, 2], [7, 8, -9]])
      = [[12, -345, 6], [0, 1, 2], [7, 8, -9]] :=
  ⟨by decide, by decide, by decide,
   writeBasis_parse_roundtrip _ (by decide) (by decide) (by decide)⟩

/-! ## BasisGenerator: `genBasis` (q-ary lattice basis)

`genBasis(n, m, q)` samples a random `m×n` matrix `A` over `[0, q)` with
`crypto/rand` and then fills a zero-initialised `(m+n)×(m+n)` matrix with
`q·I_m` top-left, `A` top-right and `I_n` bottom-right.  The sampled `A`
is passed explicitly here; the function below gives the final content of
`B[i][j]` after the three (disjoint) fill loops.  The Go function has no
error channel and performs no parameter validation: it returns a plain
`[][]*big.Int` for every `n, m ≥ 0` (and panics inside `crypto/rand` for
`q ≤ 0`, since the error of `rand.Int` is discarded). -/
def genBasis (n m : ℕ) (q : ℤ) (A : ℕ → ℕ → ℤ) :
    Matrix (Fin (m + n)) (Fin (m + n)) ℤ :=
  Matrix.of fun i j =>
    if i.val < m then
      if j.val < m then (if j.val = i.val then q else 0)
      else A i.val (j.val - m)
    else
      if j.val = i.val then 1 else 0

/-- **C5.** For every `n, m` and `q`, and any sampled matrix `A` with
entries in `[0, q)` (the contract of `rand.Int(rand.Reader, q)`),
`genBasis n m q A` is an `(m+n)×(m+n)` matrix whose top-left `m×m` block
is `q·I`, bottom-right `n×n` block is `I`, bottom-left block is `0`, and
top-right `m×n` block has entries in `[0, q)`. -/
theorem genBasis_blocks (n m : ℕ) (q : ℤ) (A : ℕ → ℕ → ℤ)
    (hA : ∀ i < m, ∀ j < n, 0 ≤ A i j ∧ A i j < q) :
    (∀ i j : Fin (m + n), i.val < m → j.val < m →
      genBasis n m q A i j = if i.val = j.val then q else 0) ∧
    (∀ i j : Fin (m + n), m ≤ i.val → m ≤ j.val →
      genBasis n m q A i j = if i.val = j.val then 1 else 0) ∧
    (∀ i j : Fin (m + n), m ≤ i.val → j.val < m → genBasis n m q A i j = 0) ∧
    (∀ i j : Fin (m + n), i.val < m → m ≤ j.val →
      0 ≤ genBasis n m q A i j ∧ genBasis n m q A i j < q) := by
  refine ⟨?_, ?_, ?_, ?_⟩ <;> intro i j hi hj <;> simp only [genBasis, Matrix.of_apply]
  · rw [if_pos hi, if_pos hj]
    by_cases h : j.val = i.val
    · rw [if_pos h, if_pos h.symm]
    · rw [if_neg h, if_neg fun hh => h hh.symm]
  · rw [if_neg (not_lt.mpr hi)]
    by_cases h : j.val = i.val
    · rw [if_pos h, if_pos h.symm]
    · rw [if_neg h, if_neg fun hh => h hh.symm]
  · rw [if_neg (not_lt.mpr hi), if_neg (by omega)]
  · rw [if_pos hi, if_neg (not_lt.mpr hj)]
    exact hA i.val hi (j.val - m) (by omega)

/-- Witness for C5 at `n = m = 1`, `q = 2`, `A = 1`. -/
theorem genBasis_blocks_witness :
    (∀ i < 1, ∀ j < 1, (0:ℤ) ≤ 1 ∧ (1:ℤ) < 2) ∧
    ((∀ i j : Fin 2, i.val < 1 → j.val < 1 →
      genBasis 1 1 2 (fun _ _ => 1) i j = if i.val = j.val then 2 else 0) ∧
    (∀ i j : Fin 2, 1 ≤ i.val → 1 ≤ j.val →
      genBasis 1 1 2 (fun _ _ => 1) i j = if i.val = j.val then 1 else 0) ∧
    (∀ i j : Fin 2, 1 ≤ i.val → j.val < 1 → genBasis 1 1 2 (fun _ _ => 1) i j = 0) ∧
    (∀ i j : Fin 2, i.val < 1 → 1 ≤ j.val →
      0 ≤ genBasis 1 1 2 (fun _ _ => 1) i j ∧ genBasis 1 1 2 (fun _ _ => 1) i j < 2)) :=
  ⟨by decide, genBasis_blocks 1 1 2 (fun _ _ => 1) (by decide)⟩

/-- **C6 counterexample.** The claim says `genBasis` fails with an
`InvalidParameter` error whenever `n < 1`.  The Go function has no error
channel at all: at `n = 0 < 1`, `m = 1`, `q = 2` it succeeds and returns
the well-formed 1×1 matrix `[[2]]` (and for `q ≤ 0` it panics inside
`crypto/rand` rather than reporting a typed failure). -/
theorem genBasis_degenerate_succeeds :
    genBasis 0 1 2 (fun _ _ => 0) = Matrix.of (fun _ _ => (2:ℤ)) := by
  ext i j
  fin_cases i
  fin_cases j
  rfl

/-- **C6 (amended).** `genBasis` performs no parameter validation and
never produces an `InvalidParameter` failure: for `n = 0` it succeeds and
returns `q·I_m`, and for `m = 0` it succeeds and returns `I_n`; the block
structure of C5 holds for all `n, m ≥ 0`, not only `n, m ≥ 1`. -/
theorem genBasis_no_validation :
    (∀ (m : ℕ) (q : ℤ) (A : ℕ → ℕ → ℤ),
      genBasis 0 m q A = Matrix.diagonal (fun _ => q)) ∧
    (∀ (n : ℕ) (q : ℤ) (A : ℕ → ℕ → ℤ),
      genBasis n 0 q A = (1 : Matrix (Fin (0 + n)) (Fin (0 + n)) ℤ)) := by
  constructor
  · intro m q A
    ext i j
    have hi : i.val < m := i.isLt
    have hj : j.val < m := j.isLt
    simp only [genBasis, Matrix.of_apply, if_pos hi, if_pos hj, Matrix.diagonal_apply]
    by_cases h : j.val = i.val
    · rw [if_pos h, if_pos (Fin.ext h.symm)]
    · rw [if_neg h, if_neg fun hh => h (congrArg Fin.val hh).symm]
  · intro n q A
    ext i j
    have hi : ¬ i.val < 0 := by omega
    simp only [genBasis, Matrix.of_apply, if_neg hi, Matrix.one_apply]
    by_cases h : j.val = i.val
    · rw [if_pos h, if_pos (Fin.ext h.symm)]
    · rw [if_neg h, if_neg fun hh => h (congrArg Fin.val hh).symm]

/-! ## HeuristicPredictor: `gaussianHeuristic`

`gaussianHeuristic(vol, rank)` computes
`math.Sqrt(n/(2*math.Pi*math.E)) * math.Pow(vol, 1.0/n)` with
`n = float64(rank)`.  The `float64` arithmetic is idealised over `ℝ`;
`math.Pow` agrees with the real power for positive bases, the domain of
the claims. -/
noncomputable def gaussianHeuristic (vol : ℝ) (rank : ℕ) : ℝ :=
  let n : ℝ := rank
  let coefficient := Real.sqrt (n / (2 * Real.pi * Real.exp 1))
  let volPowerN := vol ^ ((1 : ℝ) / n)
  coefficient * volPowerN

/-- **C7.** For every `rank ≥ 1` and `volume > 0`, `gaussianHeuristic`
equals the Gaussian-Heuristic formula `√(rank/(2π·e)) · volume^(1/rank)`;
at `volume = 1`, `rank = 30` it equals `√(30/(2π·e))`, which lies within
`0.003` of the spec's quoted `1.323` (its exact value is `1.3253…`). -/
theorem gaussianHeuristic_formula (vol : ℝ) (rank : ℕ)
    (hrank : 1 ≤ rank) (hvol : 0 < vol) :
    gaussianHeuristic vol rank
      = Real.sqrt ((rank : ℝ) / (2 * Real.pi * Real.exp 1)) * vol ^ ((1 : ℝ) / (rank : ℝ)) ∧
    gaussianHeuristic 1 30 = Real.sqrt (30 / (2 * Real.pi * Real.exp 1)) ∧
    |gaussianHeuristic 1 30 - 1.323| < 0.003 := by
  have hgh : gaussianHeuristic 1 30 = Real.sqrt (30 / (2 * Real.pi * Real.exp 1)) := by
    show Real.sqrt (((30:ℕ) : ℝ) / (2 * Real.pi * Real.exp 1)) * (1:ℝ) ^ ((1:ℝ) / ((30:ℕ):ℝ)) = _
    rw [Real.one_rpow, mul_one]
    norm_num
  refine ⟨rfl, hgh, ?_⟩
  rw [hgh]
  have hpi_lo := Real.pi_gt_d6
  have hpi_hi := Real.pi_lt_d6
  have he_lo := Real.exp_one_gt_d9
  have he_hi := Real.exp_one_lt_d9
  have hpe_hi : Real.pi * Real.exp 1 < 3.141593 * 2.7182818286 :=
    mul_lt_mul'' hpi_hi he_hi (le_of_lt Real.pi_pos) (le_of_lt (Real.exp_pos 1))
  have hpe_lo : (3.141592 : ℝ) * 2.7182818283 < Real.pi * Real.exp 1 :=
    mul_lt_mul'' hpi_lo he_lo (by norm_num) (by norm_num)
  have hd_pos : (0:ℝ) < 2 * Real.pi * Real.exp 1 := by positivity
  have hx_lo : (1.7424 : ℝ) < 30 / (2 * Real.pi * Real.exp 1) := by
    rw [lt_div_iff₀ hd_pos]
    nlinarith
  have hx_hi : 30 / (2 * Real.pi * Real.exp 1) < (1.758276 : ℝ) := by
    rw [div_lt_iff₀ hd_pos]
    nlinarith
  have hs_lo : (1.320 : ℝ) < Real.sqrt (30 / (2 * Real.pi * Real.exp 1)) :=
    (Real.lt_sqrt (by norm_num)).mpr (by nlinarith)
  have hs_hi : Real.sqrt (30 / (2 * Real.pi * Real.exp 1)) < (1.326 : ℝ) :=
    (Real.sqrt_lt' (by norm_num)).mpr (by nlinarith)
  rw [abs_lt]
  constructor <;> nlinarith

/-- Witness for C7 at `volume = 1`, `rank = 30`. -/
theorem gaussianHeuristic_formula_witness :
    1 ≤ 30 ∧ (0:ℝ) < 1 ∧
    (gaussianHeuristic 1 30
        = Real.sqrt (((30:ℕ) : ℝ) / (2 * Real.pi * Real.exp 1))
            * (1:ℝ) ^ ((1 : ℝ) / ((30:ℕ) : ℝ)) ∧
      gaussianHeuristic 1 30 = Real.sqrt (30 / (2 * Real.pi * Real.exp 1)) ∧
      |gaussianHeuristic 1 30 - 1.323| < 0.003) :=
  ⟨by decide, one_pos, gaussianHeuristic_formula 1 30 (by decide) one_pos⟩

/-- **C8.** For fixed `rank > 0`, `gaussianHeuristic` is strictly
increasing in the volume: `0 < v1 < v2` implies
`gaussianHeuristic v1 rank < gaussianHeuristic v2 rank`. -/
theorem gaussianHeuristic_strictMono (rank : ℕ) (hrank : 0 < rank)
    (v1 v2 : ℝ) (h1 : 0 < v1) (h12 : v1 < v2) :
    gaussianHeuristic v1 rank < gaussianHeuristic v2 rank := by
  have hr : (0:ℝ) < (rank : ℝ) := by exact_mod_cast hrank
  have hc : 0 < Real.sqrt ((rank : ℝ) / (2 * Real.pi * Real.exp 1)) := by
    apply Real.sqrt_pos.mpr
    positivity
  have hp : v1 ^ ((1:ℝ) / (rank : ℝ)) < v2 ^ ((1:ℝ) / (rank : ℝ)) :=
    Real.rpow_lt_rpow (le_of_lt h1) h12 (div_pos one_pos hr)
  exact mul_lt_mul_of_pos_left hp hc

/-- Witness for C8 at `rank = 30`, `v1 = 1`, `v2 = 2`. -/
theorem gaussianHeuristic_strictMono_witness :
    0 < 30 ∧ (0:ℝ) < 1 ∧ (1:ℝ) < 2 ∧
    gaussianHeuristic 1 30 < gaussianHeuristic 2 30 :=
  ⟨by decide, one_pos, one_lt_two,
   gaussianHeuristic_strictMono 30 (by decide) 1 2 one_pos one_lt_two⟩

/-! ## VolumeEstimator: `latticeVolume`

`latticeVolume(basis)` converts the integer basis to `float64`, forms
`B·Bᵀ` with gonum, and returns `√|det(B·Bᵀ)|` (the absolute value guards
against tiny negative determinants from rounding).  Idealised over `ℝ`. -/
noncomputable def latticeVolume {k : ℕ} (basis : Matrix (Fin k) (Fin k) ℤ) : ℝ :=
  let B := basis.map (fun v : ℤ => (v : ℝ))
  Real.sqrt |(B * Bᵀ).det|

/-- **C9.** `latticeVolume` is invariant under row permutation and row
sign flip, and on the spec's concrete example both `[[2,0],[0,3]]` and its
unimodular transform `[[2,3],[0,3]]` have volume `6` (exactly, in the
idealised real arithmetic). -/
theorem latticeVolume_invariance :
    (∀ (k : ℕ) (basis : Matrix (Fin k) (Fin k) ℤ) (σ : Equiv.Perm (Fin k)),
      latticeVolume (basis.submatrix σ id) = latticeVolume basis) ∧
    (∀ (k : ℕ) (basis : Matrix (Fin k) (Fin k) ℤ) (i0 : Fin k),
      latticeVolume (basis.updateRow i0 (fun j => - basis i0 j)) = latticeVolume basis) ∧
    latticeVolume !![2, 0; 0, 3] = 6 ∧
    latticeVolume !![2, 3; 0, 3] = 6 := by
  refine ⟨?_, ?_, ?_, ?_⟩
  · intro k basis σ
    unfold latticeVolume
    have hmap : (basis.submatrix (⇑σ) id).map (fun v : ℤ => (v : ℝ))
        = (basis.map (fun v : ℤ => (v : ℝ))).submatrix (⇑σ) id := rfl
    simp only [hmap]
    have hmm : (basis.map (fun v : ℤ => (v : ℝ))).submatrix (⇑σ) id
          * ((basis.map (fun v : ℤ => (v : ℝ))).submatrix (⇑σ) id)ᵀ
        = ((basis.map (fun v : ℤ => (v : ℝ)))
          * (basis.map (fun v : ℤ => (v : ℝ)))ᵀ).submatrix (⇑σ) (⇑σ) := by
      ext i j
      simp [Matrix.mul_apply, Matrix.submatrix_apply, Matrix.transpose_apply]
    rw [hmm, Matrix.det_submatrix_equiv_self σ]
  · intro k basis i0
    unfold latticeVolume
    set s : Fin k → ℝ := fun i => if i = i0 then -1 else 1 with hs
    set B := basis.map (fun v : ℤ => (v : ℝ)) with hB
    have hmap : (basis.updateRow i0 (fun j => - basis i0 j)).map (fun v : ℤ => (v : ℝ))
        = Matrix.diagonal s * B := by
      ext i j
      rw [Matrix.diagonal_mul]
      by_cases h : i = i0
      · subst h
        simp [Matrix.map_apply, Matrix.updateRow_self, hs, hB]
      · simp [Matrix.map_apply, Matrix.updateRow_ne h, hs, h, hB]
    simp only [hmap]
    have hDT : (Matrix.diagonal s * B)ᵀ = Bᵀ * Matrix.diagonal s := by
      rw [Matrix.transpose_mul, Matrix.diagonal_transpose]
    rw [hDT]
    have hassoc : Matrix.diagonal s * B * (Bᵀ * Matrix.diagonal s)
        = Matrix.diagonal s * (B * Bᵀ) * Matrix.diagonal s := by
      rw [← Matrix.mul_assoc, Matrix.mul_assoc (Matrix.diagonal s) B Bᵀ]
    rw [hassoc, Matrix.det_mul, Matrix.det_mul, Matrix.det_diagonal]
    have habs : |∏ i, s i| = 1 := by
      rw [Finset.abs_prod, Finset.prod_eq_one]
      intro i _
      by_cases h : i = i0 <;> simp [hs, h]
    rw [abs_mul, abs_mul, habs]
    ring_nf
  · unfold latticeVolume
    have h : ((!![2, 0; 0, 3] : Matrix (Fin 2) (Fin 2) ℤ).map (fun v : ℤ => (v : ℝ)))
        * ((!![2, 0; 0, 3] : Matrix (Fin 2) (Fin 2) ℤ).map (fun v : ℤ => (v : ℝ)))ᵀ
        = !![4, 0; 0, 9] := by
      ext i j
      fin_cases i <;> fin_cases j <;>
        norm_num [Matrix.mul_apply, Fin.sum_univ_two, Matrix.map_apply]
    simp only [h, Matrix.det_fin_two_of]
    norm_num
    rw [show (36:ℝ) = 6^2 by norm_num, Real.sqrt_sq (by norm_num)]
  · unfold latticeVolume
    have h : ((!![2, 3; 0, 3] : Matrix (Fin 2) (Fin 2) ℤ).map (fun v : ℤ => (v : ℝ)))
        * ((!![2, 3; 0, 3] : Matrix (Fin 2) (Fin 2) ℤ).map (fun v : ℤ => (v : ℝ)))ᵀ
        = !![13, 9; 9, 9] := by
      ext i j
      fin_cases i <;> fin_cases j <;>
        norm_num [Matrix.mul_apply, Fin.sum_univ_two, Matrix.map_apply]
    simp only [h, Matrix.det_fin_two_of]
    norm_num
    rw [show (36:ℝ) = 6^2 by norm_num, Real.sqrt_sq (by norm_num)]

/-! ## ReductionOracle, Simulated backend: `svpOracle` (draft 1) -/

/-- Model of the Simulated backend's `svpOracle(basis, radius)`: it
converts the basis to a `size×size` float matrix, copies the FIRST basis
row, and returns its squared Euclidean norm.  The radius argument is never
used.  Sums of squares of integer entries are exact, so `ℚ` represents the
float64 value faithfully. -/
def svpOracleSim (basis : List (List ℤ)) (radius : ℚ) : ℚ :=
  let size := basis.length
  let firstVector := ((basis.headD []).take size).map (fun v : ℤ => (v : ℚ))
  (firstVector.map (fun val => val * val)).sum

/-- **C10.** The Simulated shortest-vector query ignores the search
radius: for any two radii it returns the same value, namely the squared
Euclidean norm of the first basis row; its plain numeric return type has
no `NotFoundWithinRadius` outcome at all. -/
theorem svpOracleSim_radius_independent (basis : List (List ℤ)) (r1 r2 : ℚ)
    (hne : basis ≠ []) (hsq : ∀ r ∈ basis, r.length = basis.length) :
    svpOracleSim basis r1 = svpOracleSim basis r2 ∧
    svpOracleSim basis r1
      = ((basis.headD []).map (fun v : ℤ => (v : ℚ) * (v : ℚ))).sum := by
  constructor
  · rfl
  · obtain ⟨r0, rest, rfl⟩ := List.exists_cons_of_ne_nil hne
    have hlen : r0.length = (r0 :: rest).length := hsq r0 (by simp)
    unfold svpOracleSim
    simp only [List.headD_cons]
    rw [← hlen, List.take_length, List.map_map]
    rfl

/-- Witness for C10 at the basis `[[3,4],[0,1]]` with radii 1 and 100. -/
theorem svpOracleSim_radius_independent_witness :
    ([[3, 4], [0, 1]] : List (List ℤ)) ≠ [] ∧
    (∀ r ∈ ([[3, 4], [0, 1]] : List (List ℤ)),
      r.length = ([[3, 4], [0, 1]] : List (List ℤ)).length) ∧
    (svpOracleSim [[3, 4], [0, 1]] 1 = svpOracleSim [[3, 4], [0, 1]] 100 ∧
     svpOracleSim [[3, 4], [0, 1]] 1
       = ((([[3, 4], [0, 1]] : List (List ℤ)).headD []).map
            (fun v : ℤ => (v : ℚ) * (v : ℚ))).sum) :=
  ⟨by decide, by decide,
   svpOracleSim_radius_independent [[3, 4], [0, 1]] 1 100 (by decide) (by decide)⟩

/-! ## ReductionOracle, ProcessBackend

The ProcessBackend `svpOracle` (draft 2) and `runBKZ` (lab2.go) write the
basis to a fixed temporary path, invoke the external `fplll` binary and
parse its stdout.  The two environment interactions are passed as
parameters: `createOk` says whether `os.Create` succeeded (the only error
`writeBasisToFile` can return, and it fails before the file exists), and
`procOut` is `some stdout` when `cmd.Output()` succeeded and `none` on a
non-zero exit or missing binary.  Each model returns its Go result paired
with the trace of file-system/process events the call performs; the
`.remove` closing every post-create path is the `defer os.Remove(tmpFile)`
that runs at every return. -/

/-- File-system and process events performed by a ProcessBackend query. -/
inductive FsEvent
  | create (path : List Char)
  | remove (path : List Char)
  | invoke
deriving DecidableEq

/-- Files existing after a trace of events, starting from none. -/
def filesAfter (evs : List FsEvent) : List (List Char) :=
  evs.foldl (fun files e =>
    match e with
    | .create p => files ++ [p]
    | .remove p => files.erase p
    | .invoke => files) []

/-- Number of external-engine invocations in a trace. -/
def invokeCount (evs : List FsEvent) : ℕ :=
  evs.countP (fun e => match e with | .invoke => true | _ => false)

/-- The hardcoded temporary path of the SVP query. -/
def tmpLatticeBasis : List Char := "/tmp/lattice_basis.txt".toList

/-- The hardcoded temporary path of the BKZ query. -/
def tmpLatticeBasisBkz : List Char := "/tmp/lattice_basis_bkz.txt".toList

/-- Unsigned part of the `strconv.ParseFloat` model: decimal digits with
an optional fractional part.  (Exponent, leading-dot and Inf/NaN forms are
not modelled; the engine emits plain integer vectors.) -/
def parseFloatUnsigned? (l : List Char) : Option ℚ :=
  let intPart := l.takeWhile Char.isDigit
  let rest := l.dropWhile Char.isDigit
  if intPart.isEmpty then none
  else
    match rest with
    | [] => some (digitsToNat intPart : ℚ)
    | '.' :: frac =>
      if !frac.isEmpty && frac.all Char.isDigit then
        some ((digitsToNat intPart : ℚ) + (digitsToNat frac : ℚ) / 10 ^ frac.length)
      else none
    | _ => none

/-- Model of `strconv.ParseFloat(coord, 64)` on the shapes the oracle can
meet: optional sign, digits, optional fraction. -/
def parseFloat? (l : List Char) : Option ℚ :=
  match l with
  | [] => none
  | c :: rest =>
    if c = '+' then parseFloatUnsigned? rest
    else if c = '-' then (parseFloatUnsigned? rest).map Neg.neg
    else parseFloatUnsigned? (c :: rest)

/-- Model of `strings.HasSuffix(s, "]")`. -/
def hasSuffixBr (l : List Char) : Bool := l.getLast? == some ']'

/-- Model of the ProcessBackend `svpOracle(basis, radius)`: write the
basis to `/tmp/lattice_basis.txt`, run `fplll -a svp`, and if stdout (once
trimmed) is a bracketed vector, sum the squares of its parseable
coordinates; otherwise return the estimate `radius²`.  A write failure or
process failure prints a message and returns `0`. -/
def svpOracle (basis : List (List ℤ)) (radius : ℚ) (createOk : Bool)
    (procOut : Option (List Char)) : ℚ × List FsEvent :=
  if createOk = false then
    (0, [])
  else
    match procOut with
    | none => (0, [.create tmpLatticeBasis, .invoke, .remove tmpLatticeBasis])
    | some output =>
      let outputStr := trimSpace output
      if hasPrefixBr outputStr && hasSuffixBr outputStr then
        let vectorStr := (outputStr.drop 1).dropLast
        let coords := fields vectorStr
        let norm := coords.foldl (fun acc coord =>
          match parseFloat? coord with
          | some val => acc + val * val
          | none => acc) 0
        (norm, [.create tmpLatticeBasis, .invoke, .remove tmpLatticeBasis])
      else
        (radius * radius, [.create tmpLatticeBasis, .invoke, .remove tmpLatticeBasis])

/-- Dot product of the first `n` components, as the Go loops `for j < n`
compute it. -/
noncomputable def dotR (n : ℕ) (u v : ℕ → ℝ) : ℝ :=
  ((List.range n).map (fun j => u j * v j)).sum

/-- One outer iteration of the Gram-Schmidt loop of
`computeGramSchmidtProfile`: the Go code projects the ORIGINAL row `B[i]`
(classical Gram-Schmidt) onto each previous ortho vector, skipping vectors
of squared norm ≤ 1e-10. -/
noncomputable def orthoStep (n : ℕ) (Bi : ℕ → ℝ) (prev : List (ℕ → ℝ)) : ℕ → ℝ :=
  prev.foldl (fun acc ok =>
    let dot := dotR n Bi ok
    let s := dotR n ok ok
    if s > 1e-10 then fun j => acc j - dot / s * ok j else acc) Bi

/-- The ortho vectors accumulated by the outer loop. -/
noncomputable def orthoList (n : ℕ) (B : ℕ → ℕ → ℝ) : List (ℕ → ℝ) :=
  (List.range n).foldl (fun os i => os ++ [orthoStep n (B i) os]) []

/-- Model of `computeGramSchmidtProfile`: convert to an `n×n` float matrix
(zero-filling entries past a short row, as the Go guard
`j < len(basis[i])` does), run the Gram-Schmidt pass, and return
`log2 √‖b*_i‖²` per index with `-50` for vanishing vectors. -/
noncomputable def computeGramSchmidtProfile (basis : List (List ℤ)) : List ℝ :=
  let n := basis.length
  if n = 0 then []
  else
    let B : ℕ → ℕ → ℝ := fun i j =>
      if j < (basis.getD i []).length then (((basis.getD i []).getD j 0 : ℤ) : ℝ) else 0
    (List.range n).map (fun i =>
      let o := (orthoList n B).getD i (fun _ => 0)
      let norm := dotR n o o
      if norm > 1e-10 then Real.logb 2 (Real.sqrt norm) else -50)

/-- Model of `runBKZ(basis, beta)` (lab2.go, ProcessBackend): write the
basis, run `fplll -a bkz -b beta`, parse the reduced basis from stdout,
and compute its Gram-Schmidt profile; every failure path (write error,
process error, empty/garbled output, row-count mismatch) prints a message
and returns a zero profile of length `rank`. -/
noncomputable def runBKZ (basis : List (List ℤ)) (beta : ℕ) (createOk : Bool)
    (procOut : Option (List Char)) : List ℝ × List FsEvent :=
  let rank := basis.length
  if createOk = false then
    (List.replicate rank 0, [])
  else
    match procOut with
    | none =>
      (List.replicate rank 0,
       [.create tmpLatticeBasisBkz, .invoke, .remove tmpLatticeBasisBkz])
    | some output =>
      let reducedBasis := parseMatrixOutput output
      if reducedBasis = [] ∨ reducedBasis.length ≠ rank then
        (List.replicate rank 0,
         [.create tmpLatticeBasisBkz, .invoke, .remove tmpLatticeBasisBkz])
      else
        (computeGramSchmidtProfile reducedBasis,
         [.create tmpLatticeBasisBkz, .invoke, .remove tmpLatticeBasisBkz])

/-- Model of the fallback (Simulated) `runBKZ` in lab2_fallback.go:
squared row norms with decay `0.99^i`, profile entry `log2 √(norm·decay)`. -/
noncomputable def runBKZFallback (basis : List (List ℤ)) (beta : ℕ) : List ℝ :=
  let size := basis.length
  (List.range size).map (fun i =>
    let norm := ((List.range size).map (fun j =>
      (((basis.getD i []).getD j 0 : ℤ) : ℝ)
        * (((basis.getD i []).getD j 0 : ℤ) : ℝ))).sum
    let decay := (0.99 : ℝ) ^ i
    let adjustedNorm := norm * decay
    Real.logb 2 (Real.sqrt adjustedNorm))

theorem computeGramSchmidtProfile_length (basis : List (List ℤ)) :
    (computeGramSchmidtProfile basis).length = basis.length := by
  unfold computeGramSchmidtProfile
  by_cases h : basis.length = 0
  · simp [h]
  · simp [h]

/-- **C2.** For every non-empty basis, every write/process outcome and
both backends (ProcessBackend `runBKZ` and the Simulated fallback
`runBKZ`), the returned profile has length exactly the rank
(`len(basis)`) of the input basis.  The failure paths return a zero-filled
profile of that same length; a parsed basis whose row count disagrees with
the rank is rejected, never propagated. -/
theorem runBKZ_profile_length (basis : List (List ℤ)) (beta : ℕ) (createOk : Bool)
    (procOut : Option (List Char)) (hne : basis ≠ []) :
    (runBKZ basis beta createOk procOut).1.length = basis.length ∧
    (runBKZFallback basis beta).length = basis.length := by
  constructor
  · unfold runBKZ
    cases createOk
    · simp
    · rcases procOut with _ | out
      · simp
      · simp only [Bool.true_eq_false, if_false]
        by_cases h : parseMatrixOutput out = [] ∨ (parseMatrixOutput out).length ≠ basis.length
        · rw [if_pos h]
          simp
        · rw [if_neg h]
          push_neg at h
          simp [computeGramSchmidtProfile_length, h.2]
  · unfold runBKZFallback
    simp

/-- Witness for C2 at the basis `[[2]]` with a garbled process output. -/
theorem runBKZ_profile_length_witness :
    ([[2]] : List (List ℤ)) ≠ [] ∧
    ((runBKZ [[2]] 20 true (some ("garbage".toList))).1.length
        = ([[2]] : List (List ℤ)).length ∧
      (runBKZFallback [[2]] 20).length = ([[2]] : List (List ℤ)).length) :=
  ⟨by decide, runBKZ_profile_length [[2]] 20 true (some ("garbage".toList)) (by decide)⟩

/-- **C3.** Temporary-file discipline of the ProcessBackend: after every
`svpOracle` and every `runBKZ` query — success, parse failure and process
failure alike — no temporary file created by the query remains.  (When
`os.Create` itself fails, no file was created; on every other path the
`defer os.Remove` runs at return.) -/
theorem tempFile_cleanup (basis : List (List ℤ)) (radius : ℚ) (beta : ℕ)
    (createOk : Bool) (procOut : Option (List Char)) :
    filesAfter (svpOracle basis radius createOk procOut).2 = [] ∧
    filesAfter (runBKZ basis beta createOk procOut).2 = [] := by
  constructor
  · unfold svpOracle
    cases createOk
    · simp [filesAfter]
    · rcases procOut with _ | out
      · simp [filesAfter]
      · simp only [Bool.true_eq_false, if_false]
        split
        · simp [filesAfter]
        · simp [filesAfter]
  · unfold runBKZ
    cases createOk
    · simp [filesAfter]
    · rcases procOut with _ | out
      · simp [filesAfter]
      · simp only [Bool.true_eq_false, if_false]
        split
        · simp [filesAfter]
        · simp [filesAfter]

/-- **C4 counterexample.** The oracle's failures are NOT returned as typed
results: on garbled (unbracketed) output, `svpOracle` returns the in-band
estimate `radius² = 4` — numerically identical to its genuine result on
the legitimate output `"[2]"` — and on a process failure it returns the
in-band value `0`.  The caller cannot distinguish failure from success in
the returned value. -/
theorem svpOracle_failure_untyped :
    (svpOracle [[2]] 2 true (some ("fplll error".toList))).1 = 4 ∧
    (svpOracle [[2]] 2 true (some ("[2]".toList))).1 = 4 ∧
    (svpOracle [[2]] 2 true none).1 = 0 := by
  refine ⟨?_, ?_, rfl⟩
  · show (2 : ℚ) * 2 = 4
    norm_num
  · show (0 : ℚ) + (digitsToNat ['2'] : ℚ) * (digitsToNat ['2'] : ℚ) = 4
    rw [show digitsToNat ['2'] = 2 from by decide]
    norm_num

/-- **C4 (amended).** Failures of the ProcessBackend oracle (non-zero
exit, empty or garbled output, wrong-length result) are recoverable —
handled without crash — and are never retried: the engine is invoked at
most once per query.  But they are reported as in-band numeric sentinels
(`0` after a write/process failure, `radius²` after unbracketed SVP
output, a zero profile of length rank after every BKZ failure), not as
typed results. -/
theorem oracle_failure_policy (basis : List (List ℤ)) (radius : ℚ) (beta : ℕ)
    (createOk : Bool) (procOut : Option (List Char)) :
    invokeCount (svpOracle basis radius createOk procOut).2 ≤ 1 ∧
    invokeCount (runBKZ basis beta createOk procOut).2 ≤ 1 ∧
    (svpOracle basis radius true none).1 = 0 ∧
    (∀ out, (hasPrefixBr (trimSpace out) && hasSuffixBr (trimSpace out)) = false →
      (svpOracle basis radius true (some out)).1 = radius * radius) ∧
    (runBKZ basis beta true none).1 = List.replicate basis.length 0 := by
  refine ⟨?_, ?_, rfl, ?_, rfl⟩
  · unfold svpOracle
    cases createOk
    · simp [invokeCount]
    · rcases procOut with _ | out
      · simp [invokeCount]
      · simp only [Bool.true_eq_false, if_false]
        split
        · simp [invokeCount]
        · simp [invokeCount]
  · unfold runBKZ
    cases createOk
    · simp [invokeCount]
    · rcases procOut with _ | out
      · simp [invokeCount]
      · simp only [Bool.true_eq_false, if_false]
        split
        · simp [invokeCount]
        · simp [invokeCount]
  · intro out hout
    unfold svpOracle
    simp only [Bool.true_eq_false, if_false, hout]
    rw [if_neg (by simp [hout])]

/-- Witness for the amended C4 at the garbled output `"err"`. -/
theorem oracle_failure_policy_witness :
    ((hasPrefixBr (trimSpace ("err".toList))
        && hasSuffixBr (trimSpace ("err".toList))) = false) ∧
    (svpOracle [[2]] 2 true (some ("err".toList))).1 = 2 * 2 :=
  ⟨by decide,
   (oracle_failure_policy [[2]] 2 20 true (some ("err".toList))).2.2.2.1
     ("err".toList) (by decide)⟩

end LatticeLab
